import Mathlib

/-!
# Verification of the Markov chain text generator (`markov.py`)

A shallow embedding of the `MarkovGenerator` class from `markov.py`:

* `tokenize`        embeds `MarkovGenerator._tokenize`
* `addText` / `buildModel` embed `MarkovGenerator._build_model` (and the
  constructor's call to it)
* `getRandomStart`  embeds `MarkovGenerator._get_random_start`
* `genLoop` / `generateText` embed `MarkovGenerator.generate_text`

Modelling conventions:

* A token (a Python word string) is a `List Char`; a text is a `List Char`.
* The Python dict `self.model` is an association list kept in insertion
  order (Python 3.7+ dicts preserve insertion order; new keys are appended,
  existing keys are updated in place), so `model.map Prod.fst` is
  `list(self.model.keys())`.
* The random source (`random.choice`) is an injected stream
  `rand : Nat → Nat`; the k-th call to `random.choice(seq)` returns
  `seq[rand k % len(seq)]`.  `choice?` returns `none` exactly when Python's
  `random.choice` raises `IndexError` (empty sequence).
* Fallible code returns `Option`: a `none` result of `generateText` models
  an uncaught Python exception; `some s` models a normal return of the
  string `s`.
* The regex class `\w` is modelled as alphanumeric-or-underscore
  (`isWordChar`), `\s` as whitespace (`isSpaceChar`).
-/

namespace Markov

/-- The space character, used by `' '.join` and by whitespace normalization. -/
def spaceChar : Char := Char.ofNat 32

/-- Sentence-terminating punctuation, the tuple `('.', '!', '?')`. -/
def isTermChar (c : Char) : Bool := c = '.' || c = '!' || c = '?'

/-- The regex character class `\w` (word characters): alphanumeric or underscore. -/
def isWordChar (c : Char) : Bool := c.isAlphanum || c = '_'

/-- The regex character class `\s` (whitespace). -/
def isSpaceChar (c : Char) : Bool := c.isWhitespace

/-- A token: one word of a tokenized text, as produced by `_tokenize`. -/
abbrev Token := List Char

/-- `word.endswith(('.', '!', '?'))`: the last character is terminal
punctuation (`False` on the empty string). -/
def endsTerm (w : Token) : Bool :=
  match w.getLast? with
  | some c => isTermChar c
  | none => false

/-- `re.sub(r'\s+', ' ', text)`, with a flag recording whether the previous
character was whitespace (each maximal whitespace run becomes one space). -/
def normWsAux : Bool → List Char → List Char
  | _, [] => []
  | prevWs, c :: cs =>
    if isSpaceChar c then
      if prevWs then normWsAux true cs else spaceChar :: normWsAux true cs
    else c :: normWsAux false cs

/-- `re.sub(r'\s+', ' ', text)`. -/
def normalizeWs (s : List Char) : List Char := normWsAux false s

/-- `text.strip()`: remove leading and trailing whitespace. -/
def stripChars (s : List Char) : List Char :=
  ((s.dropWhile isSpaceChar).reverse.dropWhile isSpaceChar).reverse

/-- Helper for `text.split()`: `acc` is the current (reversed) word. -/
def splitWordsAux : List Char → List Char → List (List Char)
  | [], acc => if acc = [] then [] else [acc.reverse]
  | c :: cs, acc =>
    if isSpaceChar c then
      if acc = [] then splitWordsAux cs [] else acc.reverse :: splitWordsAux cs []
    else splitWordsAux cs (c :: acc)

/-- `text.split()`: split on whitespace runs, discarding empty pieces. -/
def splitWords (s : List Char) : List (List Char) := splitWordsAux s []

/-- The body of the `for word in text.split()` loop of `_tokenize`: keep a
word ending in terminal punctuation verbatim; otherwise strip every
character matching `[^\w\s]` and keep the word only if non-empty. -/
def processWord (w : List Char) : Option Token :=
  if endsTerm w then some w
  else
    let w2 := w.filter (fun c => isWordChar c || isSpaceChar c)
    if w2 = [] then none else some w2

/-- `MarkovGenerator._tokenize`: normalize whitespace, strip, split into
words, and process each word. -/
def tokenize (text : List Char) : List Token :=
  (splitWords (stripChars (normalizeWs text))).filterMap processWord

/-- A model key: a tuple of `order` consecutive tokens. -/
abbrev Window := List Token

/-- `self.model`: dict from windows to their recorded successor lists,
as an insertion-ordered association list. -/
abbrev Model := List (Window × List Token)

/-- Dict lookup `self.model[key]` (`none` models a missing key). -/
def lookup : Model → Window → Option (List Token)
  | [], _ => none
  | (k, v) :: rest, key => if k = key then some v else lookup rest key

/-- `self.model.setdefault(key, []).append(next_word)` as written in
`_build_model`: append to an existing entry in place, or append a new
`(key, [w])` entry at the end (dict insertion order). -/
def addSucc : Model → Window → Token → Model
  | [], key, w => [(key, [w])]
  | (k, v) :: rest, key, w =>
    if k = key then (k, v ++ [w]) :: rest else (k, v) :: addSucc rest key w

/-- The mutable state of `_build_model`: `self.model` and `self.beginnings`. -/
structure BuildState where
  model : Model
  beginnings : List Window
  deriving Repr, DecidableEq

/-- One iteration of the `for text in source_texts` loop of `_build_model`:
tokenize; skip the text when `len(words) <= self.order`; otherwise record
the beginning `words[:order]` and, for each `i in range(len(words) - order)`,
record `words[i + order]` as a successor of the window `words[i:i + order]`.
(The index `i + order` is always in range, so the `getD` default is never
used.) -/
def addText (order : Nat) (st : BuildState) (text : List Char) : BuildState :=
  let words := tokenize text
  if words.length ≤ order then st
  else
    { model :=
        (List.range (words.length - order)).foldl
          (fun m i => addSucc m ((words.drop i).take order) (words.getD (i + order) []))
          st.model
      beginnings := st.beginnings ++ [words.take order] }

/-- `MarkovGenerator._build_model`, starting from the empty state set up by
`__init__`. -/
def buildModel (order : Nat) (sources : List (List Char)) : BuildState :=
  sources.foldl (addText order) ⟨[], []⟩

/-- A constructed `MarkovGenerator`: `self.order`, `self.model`,
`self.beginnings`. -/
structure Gen where
  order : Nat
  model : Model
  beginnings : List Window
  deriving Repr, DecidableEq

/-- `MarkovGenerator.__init__(source_texts, order)`. -/
def mkGenerator (sources : List (List Char)) (order : Nat) : Gen :=
  let st := buildModel order sources
  ⟨order, st.model, st.beginnings⟩

/-- `random.choice(xs)` fed the next stream value `r`: `some` element of
`xs` when `xs` is non-empty, `none` (an `IndexError`) when `xs` is empty. -/
def choice? {α : Type} (xs : List α) (r : Nat) : Option α :=
  xs[r % xs.length]?

/-- `MarkovGenerator._get_random_start`, fed one stream value: a random
beginning, or — when `self.beginnings` is empty — a random key of
`self.model` (`list(self.model.keys())` is `model.map Prod.fst`). -/
def getRandomStart (g : Gen) (r : Nat) : Option Window :=
  if g.beginnings = [] then choice? (g.model.map Prod.fst) r
  else choice? g.beginnings r

/-- The Python slice `xs[-k:]` (with the quirk that `xs[-0:]` is all of
`xs`). -/
def lastSlice {α : Type} (xs : List α) (k : Nat) : List α :=
  if k = 0 then xs else xs.drop (xs.length - k)

/-- `' '.join(result)`. -/
def joinSpace : List Token → List Char
  | [] => []
  | [w] => w
  | w :: v :: ws => w ++ spaceChar :: joinSpace (v :: ws)

/-- The `for _ in range(max_words - self.order)` loop of `generate_text`.
`fuel` is the number of loop iterations remaining, `k` the index of the
next value to draw from the random stream, `current` the current window
(`tuple(result[-order:])` after an append) and `result` the list built so
far.  Returns the final `result`, or `none` when `random.choice` raises on
an empty successor list. -/
def genLoop (model : Model) (order minWords : Nat) (rand : Nat → Nat) :
    Nat → Nat → Window → List Token → Option (List Token)
  | 0, _, _, result => some result
  | fuel + 1, k, current, result =>
    match lookup model current with
    | none => some result
    | some succs =>
      match choice? succs (rand k) with
      | none => none
      | some w =>
        let result2 := result ++ [w]
        let current2 := lastSlice result2 order
        if minWords ≤ result2.length && endsTerm w then some result2
        else genLoop model order minWords rand fuel (k + 1) current2 result2

/-- The post-processing at the end of `generate_text`: read `result[-1]`
(an `IndexError`, hence `none`, when `result` is empty), append `'.'` to it
unless it already ends in terminal punctuation, and join with spaces. -/
def finalize (result : List Token) : Option (List Char) :=
  match result.getLast? with
  | none => none
  | some last =>
    some (joinSpace (if endsTerm last then result
                     else result.dropLast ++ [last ++ ['.']]))

/-- `MarkovGenerator.generate_text(max_words, min_words)`, fed the random
stream `rand` (value 0 is consumed by `_get_random_start`, value `1 + j` by
loop iteration `j`).  `some s` models returning the string `s`; `none`
models an uncaught exception. -/
def generateText (g : Gen) (maxWords minWords : Nat) (rand : Nat → Nat) :
    Option (List Char) :=
  if g.model = [] then some []
  else
    match getRandomStart g (rand 0) with
    | none => none
    | some start =>
      match genLoop g.model g.order minWords rand (maxWords - g.order) 1 start start with
      | none => none
      | some result => finalize result

/-- The number of whitespace-separated tokens of a rendered string. -/
def countTokens (s : List Char) : Nat := (splitWords s).length

/-- Total number of recorded successors in a model (one per window
occurrence processed by `_build_model`). -/
def succCount (m : Model) : Nat := (m.map (fun p => p.2.length)).sum

/-- A well-formed token: non-empty and whitespace-free (every token
produced by `_tokenize` has this shape). -/
def okToken (t : Token) : Bool := !t.isEmpty && t.all (fun c => !isSpaceChar c)

/-- A well-formed window for a generator of the given order: exactly
`order` well-formed tokens. -/
def okWindow (order : Nat) (w : Window) : Bool :=
  w.length = order && w.all okToken

/-- A well-formed generator state: every beginning and every model key is
an `order`-token window of well-formed tokens, and every recorded successor
is a well-formed token (the shape `_build_model` produces). -/
def wfGen (g : Gen) : Bool :=
  g.beginnings.all (okWindow g.order) &&
  g.model.all (fun p => okWindow g.order p.1 && p.2.all okToken)

/-- The per-word rule as the specification words it ("strip every character
that is not alphanumeric or whitespace"), for comparison with the
implemented rule `processWord` (which keeps the regex class `\w`, i.e.
alphanumeric *or underscore*). -/
def specProcessWord (w : List Char) : Option Token :=
  if endsTerm w then some w
  else
    let w2 := w.filter (fun c => c.isAlphanum || isSpaceChar c)
    if w2 = [] then none else some w2

/-- A fixed random stream that always draws 0, for concrete runs. -/
def randZero : Nat → Nat := fun _ => 0

/-- A random stream that draws 0 for the first 49 values and 7 afterwards. -/
def randShift : Nat → Nat := fun i => if i < 49 then 0 else 7

/-- The two-text example corpus of the specification. -/
def corpusCat : List (List Char) :=
  ["the cat sat on the mat.".toList, "the cat ran away.".toList]

/-- The generator built from `corpusCat` with order 2. -/
def genCat : Gen := mkGenerator corpusCat 2

/-- A minimal order-2 generator: one three-token text. -/
def genABC : Gen := mkGenerator ["a b c.".toList] 2

/-- The generator built from the empty corpus. -/
def genEmpty : Gen := mkGenerator [] 2

/-! ## Lemmas about the tokenizer -/

theorem isSpaceChar_spaceChar : isSpaceChar spaceChar = true := by decide

/-- Whitespace normalization does not change the word split.  The second
conjunct covers the state in which the previous character was whitespace
(so a space has already been emitted and the accumulator is empty). -/
theorem splitWordsAux_normWsAux (s : List Char) :
    (∀ acc, splitWordsAux (normWsAux false s) acc = splitWordsAux s acc) ∧
    (splitWordsAux (normWsAux true s) [] = splitWordsAux s []) := by
  induction s with
  | nil => exact ⟨fun acc => rfl, rfl⟩
  | cons c cs ih =>
    by_cases hc : isSpaceChar c = true
    · constructor
      · intro acc
        simp only [normWsAux, hc, if_true, splitWordsAux, isSpaceChar_spaceChar]
        by_cases hacc : acc = []
        · simp [hacc, ih.2]
        · simp [hacc, ih.2]
      · simp only [normWsAux, hc, if_true, splitWordsAux]
        simp [ih.2]
    · have hc' : isSpaceChar c = false := by simpa using hc
      constructor
      · intro acc
        simp only [normWsAux, hc', Bool.false_eq_true, if_false, splitWordsAux, ih.1]
      · simp only [normWsAux, hc', Bool.false_eq_true, if_false, splitWordsAux, ih.1]

theorem splitWords_normalizeWs (s : List Char) :
    splitWords (normalizeWs s) = splitWords s :=
  (splitWordsAux_normWsAux s).1 []

/-- With an empty accumulator, leading whitespace is skipped. -/
theorem splitWordsAux_dropWhile (s : List Char) :
    splitWordsAux (s.dropWhile isSpaceChar) [] = splitWordsAux s [] := by
  induction s with
  | nil => rfl
  | cons c cs ih =>
    by_cases hc : isSpaceChar c = true
    · simpa [List.dropWhile_cons, hc, splitWordsAux] using ih
    · simp [List.dropWhile_cons, hc]

/-- A string of pure whitespace splits into no words. -/
theorem splitWordsAux_all_space (u : List Char)
    (h : ∀ c ∈ u, isSpaceChar c = true) : splitWordsAux u [] = [] := by
  induction u with
  | nil => rfl
  | cons c cs ih =>
    have hc := h c (List.mem_cons_self c cs)
    simpa [splitWordsAux, hc] using ih (fun d hd => h d (List.mem_cons_of_mem c hd))

/-- Trailing whitespace does not change the word split. -/
theorem splitWordsAux_append_space (t : List Char) (u : List Char)
    (h : ∀ c ∈ u, isSpaceChar c = true) :
    ∀ acc, splitWordsAux (t ++ u) acc = splitWordsAux t acc := by
  induction t with
  | nil =>
    intro acc
    cases u with
    | nil => rfl
    | cons c cs =>
      have hc := h c (List.mem_cons_self c cs)
      have hcs : splitWordsAux cs [] = [] :=
        splitWordsAux_all_space cs (fun d hd => h d (List.mem_cons_of_mem c hd))
      by_cases hacc : acc = [] <;> simp [splitWordsAux, hc, hacc, hcs]
  | cons c cs ih =>
    intro acc
    by_cases hc : isSpaceChar c = true <;>
      by_cases hacc : acc = [] <;> simp [splitWordsAux, hc, hacc, ih]

/-- `strip()` does not change the word split. -/
theorem splitWords_stripChars (s : List Char) :
    splitWords (stripChars s) = splitWords s := by
  have hlead : splitWords (s.dropWhile isSpaceChar) = splitWords s :=
    splitWordsAux_dropWhile s
  set t := s.dropWhile isSpaceChar with ht
  have hsplit : (t.reverse.dropWhile isSpaceChar).reverse ++
      (t.reverse.takeWhile isSpaceChar).reverse = t := by
    conv_rhs => rw [← t.reverse_reverse,
      ← List.takeWhile_append_dropWhile (p := isSpaceChar) (l := t.reverse)]
    rw [List.reverse_append]
  have hsp : ∀ c ∈ (t.reverse.takeWhile isSpaceChar).reverse, isSpaceChar c = true := by
    intro c hcmem
    exact List.mem_takeWhile_imp (List.mem_reverse.mp hcmem)
  calc splitWords (stripChars s)
      = splitWordsAux ((t.reverse.dropWhile isSpaceChar).reverse ++
          (t.reverse.takeWhile isSpaceChar).reverse) [] := by
        rw [stripChars, ← ht,
          splitWordsAux_append_space _ _ hsp]
        rfl
    _ = splitWordsAux t [] := by rw [hsplit]
    _ = splitWords s := hlead

/-- The whitespace normalization and strip performed by `_tokenize` before
splitting do not change the token sequence: `_tokenize` is exactly
`text.split()` followed by the per-word rule. -/
theorem tokenize_eq_filterMap (text : List Char) :
    tokenize text = (splitWords text).filterMap processWord := by
  unfold tokenize
  rw [splitWords_stripChars, splitWords_normalizeWs]

/-! ## Lemmas about joining and rendering -/

/-- Consuming a whitespace-free word accumulates it. -/
theorem splitWordsAux_no_ws (t : List Char) (h : ∀ c ∈ t, isSpaceChar c = false) :
    ∀ s acc, splitWordsAux (t ++ s) acc = splitWordsAux s (t.reverse ++ acc) := by
  induction t with
  | nil => intro s acc; rfl
  | cons c cs ih =>
    intro s acc
    have hc := h c (List.mem_cons_self c cs)
    have ih' := ih (fun d hd => h d (List.mem_cons_of_mem c hd)) s (c :: acc)
    have e1 : splitWordsAux ((c :: cs) ++ s) acc = splitWordsAux (cs ++ s) (c :: acc) := by
      simp [splitWordsAux, hc]
    rw [e1, ih']
    congr 1
    simp

/-- Splitting a space-joined list of well-formed tokens recovers the list. -/
theorem splitWords_joinSpace (ts : List Token) (h : ∀ t ∈ ts, okToken t = true) :
    splitWords (joinSpace ts) = ts := by
  induction ts with
  | nil => rfl
  | cons t rest ih =>
    have ht : okToken t = true := h t (List.mem_cons_self t rest)
    have ht' := ht
    rw [okToken, Bool.and_eq_true, List.all_eq_true] at ht'
    have htne : t ≠ [] := by
      intro he
      rw [he] at ht'
      simp at ht'
    have htws : ∀ c ∈ t, isSpaceChar c = false := by
      intro c hcmem
      have := ht'.2 c hcmem
      simpa using this
    cases rest with
    | nil =>
      have h0 := splitWordsAux_no_ws t htws [] []
      rw [List.append_nil] at h0
      show splitWordsAux t [] = [t]
      rw [h0]
      simp [splitWordsAux, htne]
    | cons v vs =>
      have ih' : splitWordsAux (joinSpace (v :: vs)) [] = v :: vs :=
        ih (fun u hu => h u (List.mem_cons_of_mem t hu))
      show splitWordsAux (t ++ spaceChar :: joinSpace (v :: vs)) [] = t :: v :: vs
      rw [splitWordsAux_no_ws t htws _ []]
      simp only [splitWordsAux, isSpaceChar_spaceChar, if_true, List.append_nil]
      have hrne : t.reverse ≠ [] := by simpa using htne
      simp only [hrne, if_false, List.reverse_reverse]
      rw [ih']

/-- The last character of `a ++ b` is the last character of `b` when `b` is
non-empty, so terminality transfers. -/
theorem endsTerm_append (a b : List Char) (hb : b ≠ []) :
    endsTerm (a ++ b) = endsTerm b := by
  unfold endsTerm
  rw [List.getLast?_append_of_ne_nil a hb]

/-- A space-joined list ends in terminal punctuation exactly when its last
token (assumed non-empty) does. -/
theorem joinSpace_endsTerm (ts : List Token) (lt : Token)
    (h : ts.getLast? = some lt) (hlt : lt ≠ []) :
    endsTerm (joinSpace ts) = endsTerm lt := by
  induction ts with
  | nil => simp at h
  | cons t rest ih =>
    cases rest with
    | nil =>
      simp only [List.getLast?_singleton, Option.some.injEq] at h
      rw [joinSpace, h]
    | cons v vs =>
      have hlast : (v :: vs).getLast? = some lt := by
        rw [List.getLast?_cons_cons] at h
        exact h
      have ihr := ih hlast
      show endsTerm (t ++ spaceChar :: joinSpace (v :: vs)) = endsTerm lt
      rw [endsTerm_append t _ (by simp)]
      cases hj : joinSpace (v :: vs) with
      | nil =>
        exfalso
        cases vs with
        | nil =>
          simp only [List.getLast?_singleton, Option.some.injEq] at hlast
          rw [joinSpace] at hj
          exact hlt (hlast ▸ hj)
        | cons w ws => simp [joinSpace] at hj
      | cons d ds =>
        have : endsTerm (spaceChar :: d :: ds) = endsTerm (d :: ds) := by
          have : spaceChar :: d :: ds = [spaceChar] ++ (d :: ds) := rfl
          rw [this, endsTerm_append [spaceChar] _ (by simp)]
        rw [this, ← hj, ihr]

/-- `joinSpace` of a list headed by two tokens is never empty. -/
theorem joinSpace_cons_cons_ne_nil (t v : Token) (vs : List Token) :
    joinSpace (t :: v :: vs) ≠ [] := by
  simp [joinSpace]

/-! ## Lemmas about the model (dict) operations -/

theorem lookup_mem (m : Model) (k : Window) (ss : List Token)
    (h : lookup m k = some ss) : (k, ss) ∈ m := by
  induction m with
  | nil => simp [lookup] at h
  | cons p rest ih =>
    obtain ⟨k0, v0⟩ := p
    by_cases hk : k0 = k
    · rw [lookup, if_pos hk] at h
      cases h
      rw [hk]
      exact List.mem_cons_self _ _
    · rw [lookup, if_neg hk] at h
      exact List.mem_cons_of_mem _ (ih h)

theorem addSucc_ne_nil (m : Model) (k : Window) (w : Token) :
    addSucc m k w ≠ [] := by
  cases m with
  | nil => simp [addSucc]
  | cons p rest =>
    obtain ⟨k0, v0⟩ := p
    by_cases hk : k0 = k <;> simp [addSucc, hk]

theorem succCount_addSucc (m : Model) (k : Window) (w : Token) :
    succCount (addSucc m k w) = succCount m + 1 := by
  induction m with
  | nil => rfl
  | cons p rest ih =>
    obtain ⟨k0, v0⟩ := p
    by_cases hk : k0 = k
    · simp [addSucc, hk, succCount]
      omega
    · simp only [addSucc, hk, if_false, succCount, List.map_cons, List.sum_cons]
      have ih' : ((addSucc rest k w).map (fun p => p.2.length)).sum =
          (rest.map (fun p => p.2.length)).sum + 1 := ih
      omega

/-- Adding a successor keeps every recorded membership. -/
theorem addSucc_lookup_mono (m : Model) (k k2 : Window) (w w2 : Token)
    (ss : List Token) (h : lookup m k2 = some ss) (hw : w2 ∈ ss) :
    ∃ ss2, lookup (addSucc m k w) k2 = some ss2 ∧ w2 ∈ ss2 := by
  induction m with
  | nil => simp [lookup] at h
  | cons p rest ih =>
    obtain ⟨k0, v0⟩ := p
    by_cases hk : k0 = k
    · by_cases hk2 : k0 = k2
      · rw [lookup, if_pos hk2] at h
        cases h
        exact ⟨ss ++ [w], by rw [addSucc, if_pos hk, lookup, if_pos hk2],
          List.mem_append_left _ hw⟩
      · rw [lookup, if_neg hk2] at h
        exact ⟨ss, by rw [addSucc, if_pos hk, lookup, if_neg hk2, h], hw⟩
    · by_cases hk2 : k0 = k2
      · rw [lookup, if_pos hk2] at h
        cases h
        exact ⟨ss, by rw [addSucc, if_neg hk, lookup, if_pos hk2], hw⟩
      · rw [lookup, if_neg hk2] at h
        obtain ⟨ss2, hl, hm⟩ := ih h
        exact ⟨ss2, by rw [addSucc, if_neg hk, lookup, if_neg hk2, hl], hm⟩

/-- The successor just added is recorded under its key. -/
theorem addSucc_lookup_self (m : Model) (k : Window) (w : Token) :
    ∃ ss, lookup (addSucc m k w) k = some ss ∧ w ∈ ss := by
  induction m with
  | nil => exact ⟨[w], by simp [addSucc, lookup], List.mem_singleton.mpr rfl⟩
  | cons p rest ih =>
    obtain ⟨k0, v0⟩ := p
    by_cases hk : k0 = k
    · exact ⟨v0 ++ [w], by rw [addSucc, if_pos hk, lookup, if_pos hk],
        List.mem_append_right _ (List.mem_singleton.mpr rfl)⟩
    · obtain ⟨ss, hl, hm⟩ := ih
      refine ⟨ss, ?_, hm⟩
      rw [addSucc, if_neg hk, lookup, if_neg hk]
      exact hl

theorem addSucc_entries_ne_nil (m : Model) (k : Window) (w : Token)
    (h : ∀ p ∈ m, p.2 ≠ []) : ∀ p ∈ addSucc m k w, p.2 ≠ [] := by
  induction m with
  | nil =>
    intro p hp
    rw [addSucc] at hp
    rcases List.mem_singleton.mp hp with rfl
    simp
  | cons q rest ih =>
    obtain ⟨k0, v0⟩ := q
    intro p hp
    by_cases hk : k0 = k
    · rw [addSucc, if_pos hk] at hp
      rcases List.mem_cons.mp hp with rfl | hp2
      · simp
      · exact h p (List.mem_cons_of_mem _ hp2)
    · rw [addSucc, if_neg hk] at hp
      rcases List.mem_cons.mp hp with rfl | hp2
      · exact h _ (List.mem_cons_self _ _)
      · exact ih (fun q hq => h q (List.mem_cons_of_mem _ hq)) p hp2

/-- A `choice?` result is an element of the sequence. -/
theorem choice?_mem {α : Type} (xs : List α) (r : Nat) (w : α)
    (h : choice? xs r = some w) : w ∈ xs := by
  rw [choice?] at h
  obtain ⟨hlt, he⟩ := List.getElem?_eq_some_iff.mp h
  exact he ▸ List.getElem_mem hlt

/-- `random.choice` on a non-empty sequence returns its `r mod length`-th
element (and in particular does not raise). -/
theorem choice?_of_ne_nil {α : Type} (xs : List α) (r : Nat) (h : xs ≠ []) :
    ∃ w, choice? xs r = some w := by
  have hlen : 0 < xs.length := List.length_pos.mpr h
  have hlt : r % xs.length < xs.length := Nat.mod_lt r hlen
  exact ⟨xs[r % xs.length], by rw [choice?, List.getElem?_eq_getElem hlt]⟩

/-! ## Lemmas about the window loop of `_build_model` -/

theorem succCount_foldl (key : Nat → Window) (val : Nat → Token) :
    ∀ (l : List Nat) (m : Model),
      succCount (l.foldl (fun m i => addSucc m (key i) (val i)) m) =
        succCount m + l.length := by
  intro l
  induction l with
  | nil => intro m; simp
  | cons i rest ih =>
    intro m
    rw [List.foldl_cons, ih, succCount_addSucc]
    simp
    omega

theorem foldl_addSucc_ne_nil (key : Nat → Window) (val : Nat → Token) :
    ∀ (l : List Nat) (m : Model), m ≠ [] ∨ l ≠ [] →
      l.foldl (fun m i => addSucc m (key i) (val i)) m ≠ [] := by
  intro l
  induction l with
  | nil =>
    intro m h
    rcases h with h | h
    · exact h
    · exact absurd rfl h
  | cons i rest ih =>
    intro m _
    rw [List.foldl_cons]
    exact ih _ (Or.inl (addSucc_ne_nil m (key i) (val i)))

theorem foldl_lookup_mono (key : Nat → Window) (val : Nat → Token) :
    ∀ (l : List Nat) (m : Model) (k2 : Window) (w2 : Token) (ss : List Token),
      lookup m k2 = some ss → w2 ∈ ss →
      ∃ ss2, lookup (l.foldl (fun m i => addSucc m (key i) (val i)) m) k2 = some ss2 ∧
        w2 ∈ ss2 := by
  intro l
  induction l with
  | nil => exact fun m k2 w2 ss h hw => ⟨ss, h, hw⟩
  | cons i rest ih =>
    intro m k2 w2 ss h hw
    obtain ⟨ss1, h1, hw1⟩ := addSucc_lookup_mono m (key i) k2 (val i) w2 ss h hw
    rw [List.foldl_cons]
    exact ih _ k2 w2 ss1 h1 hw1

/-- Every index processed by the window loop leaves its successor recorded
under its window. -/
theorem foldl_lookup_self (key : Nat → Window) (val : Nat → Token) :
    ∀ (l : List Nat) (m : Model) (i : Nat), i ∈ l →
      ∃ ss, lookup (l.foldl (fun m i => addSucc m (key i) (val i)) m) (key i) = some ss ∧
        val i ∈ ss := by
  intro l
  induction l with
  | nil => intro m i h; simp at h
  | cons j rest ih =>
    intro m i h
    rw [List.foldl_cons]
    rcases List.mem_cons.mp h with rfl | h2
    · obtain ⟨ss, hl, hm⟩ := addSucc_lookup_self m (key i) (val i)
      exact foldl_lookup_mono key val rest _ (key i) (val i) ss hl hm
    · exact ih _ i h2

theorem foldl_entries_ne_nil (key : Nat → Window) (val : Nat → Token) :
    ∀ (l : List Nat) (m : Model), (∀ p ∈ m, p.2 ≠ []) →
      ∀ p ∈ l.foldl (fun m i => addSucc m (key i) (val i)) m, p.2 ≠ [] := by
  intro l
  induction l with
  | nil => exact fun m h => h
  | cons i rest ih =>
    intro m h
    rw [List.foldl_cons]
    exact ih _ (addSucc_entries_ne_nil m (key i) (val i) h)

/-! ## Lemmas about the generation loop -/

/-- The loop appends at most one token per remaining iteration. -/
theorem genLoop_length (model : Model) (order minW : Nat) (rand : Nat → Nat) :
    ∀ (fuel k : Nat) (cur : Window) (res out : List Token),
      genLoop model order minW rand fuel k cur res = some out →
      out.length ≤ res.length + fuel := by
  intro fuel
  induction fuel with
  | zero =>
    intro k cur res out h
    rw [genLoop] at h
    cases h
    omega
  | succ fuel ih =>
    intro k cur res out h
    rw [genLoop] at h
    split at h
    · cases h
      omega
    · split at h
      · cases h
      · simp only at h
        split at h
        · cases h
          simp only [List.length_append, List.length_cons, List.length_nil]
          omega
        · have := ih _ _ _ _ h
          simp only [List.length_append, List.length_cons, List.length_nil] at this
          omega

/-- The loop reads the random stream only at indices `k, …, k + fuel - 1`. -/
theorem genLoop_congr (model : Model) (order minW : Nat) (r1 r2 : Nat → Nat) :
    ∀ (fuel k : Nat) (cur : Window) (res : List Token),
      (∀ i, k ≤ i → i < k + fuel → r1 i = r2 i) →
      genLoop model order minW r1 fuel k cur res =
        genLoop model order minW r2 fuel k cur res := by
  intro fuel
  induction fuel with
  | zero => intro k cur res _; rw [genLoop, genLoop]
  | succ fuel ih =>
    intro k cur res hagree
    rw [genLoop, genLoop]
    cases hl : lookup model cur with
    | none => rfl
    | some succs =>
      dsimp only
      have hk : r1 k = r2 k := hagree k (Nat.le_refl k) (by omega)
      rw [hk]
      cases hc : choice? succs (r2 k) with
      | none => rfl
      | some w =>
        dsimp only
        by_cases hstop : (decide (minW ≤ (res ++ [w]).length) && endsTerm w) = true
        · rw [if_pos hstop, if_pos hstop]
        · rw [if_neg hstop, if_neg hstop]
          exact ih (k + 1) _ _ (fun i h1 h2 => hagree i (by omega) (by omega))

/-- Tokens appended by the loop come from the model's successor lists, so
well-formedness of the accumulated result is preserved. -/
theorem genLoop_tokens (model : Model) (order minW : Nat) (rand : Nat → Nat)
    (hm : ∀ p ∈ model, ∀ t ∈ p.2, okToken t = true) :
    ∀ (fuel k : Nat) (cur : Window) (res out : List Token),
      (∀ t ∈ res, okToken t = true) →
      genLoop model order minW rand fuel k cur res = some out →
      ∀ t ∈ out, okToken t = true := by
  intro fuel
  induction fuel with
  | zero =>
    intro k cur res out hres h
    rw [genLoop] at h
    cases h
    exact hres
  | succ fuel ih =>
    intro k cur res out hres h
    rw [genLoop] at h
    split at h
    · cases h
      exact hres
    · rename_i succs hl
      split at h
      · cases h
      · rename_i w hc
        simp only at h
        have hw : okToken w = true :=
          hm (cur, succs) (lookup_mem model cur succs hl) w (choice?_mem succs (rand k) w hc)
        have hres2 : ∀ t ∈ res ++ [w], okToken t = true := by
          intro t ht
          rcases List.mem_append.mp ht with h1 | h1
          · exact hres t h1
          · rcases List.mem_singleton.mp h1 with rfl
            exact hw
        split at h
        · cases h
          exact hres2
        · exact ih _ _ _ _ hres2 h

/-- When the loop's `current` window is the last-`order` slice of `result`
(as `generate_text` maintains), a normal return stops for one of three
reasons: the minimum length was reached (terminal break), the iteration
budget ran out, or the final window is a dead end. -/
theorem genLoop_stop (model : Model) (order minW : Nat) (rand : Nat → Nat) :
    ∀ (fuel k : Nat) (res out : List Token),
      genLoop model order minW rand fuel k (lastSlice res order) res = some out →
      minW ≤ out.length ∨ out.length = res.length + fuel ∨
        lookup model (lastSlice out order) = none := by
  intro fuel
  induction fuel with
  | zero =>
    intro k res out h
    rw [genLoop] at h
    cases h
    omega
  | succ fuel ih =>
    intro k res out h
    rw [genLoop] at h
    split at h
    · rename_i hl
      cases h
      exact Or.inr (Or.inr hl)
    · split at h
      · cases h
      · rename_i w hc
        simp only at h
        split at h
        · rename_i hstop
          cases h
          have hb := (Bool.and_eq_true _ _).mp hstop
          exact Or.inl (of_decide_eq_true hb.1)
        · rcases ih (k + 1) (res ++ [w]) out h with h1 | h1 | h1
          · exact Or.inl h1
          · refine Or.inr (Or.inl ?_)
            rw [h1]
            simp only [List.length_append, List.length_cons, List.length_nil]
            omega
          · exact Or.inr (Or.inr h1)

/-! ## Helper lemmas for the claims -/

theorem endsTerm_ne_nil (w : Token) (h : endsTerm w = true) : w ≠ [] := by
  intro hnil
  rw [hnil] at h
  exact absurd h (by decide)

theorem okToken_append_dot (t : Token) (h : okToken t = true) :
    okToken (t ++ ['.']) = true := by
  rw [okToken, Bool.and_eq_true, List.all_eq_true] at h ⊢
  constructor
  · simp
  · intro c hc
    rcases List.mem_append.mp hc with h1 | h1
    · exact h.2 c h1
    · rcases List.mem_singleton.mp h1 with rfl
      decide

/-- Inversion of `generate_text`: a normal return is either the empty
string on an empty model, or the space-joined, punctuation-fixed result of
the loop started at the randomly chosen window. -/
theorem generateText_inv (g : Gen) (maxW minW : Nat) (rand : Nat → Nat) (s : List Char)
    (h : generateText g maxW minW rand = some s) :
    (g.model = [] ∧ s = []) ∨
    (∃ start result last,
      getRandomStart g (rand 0) = some start ∧
      genLoop g.model g.order minW rand (maxW - g.order) 1 start start = some result ∧
      result.getLast? = some last ∧
      s = joinSpace (if endsTerm last then result
                     else result.dropLast ++ [last ++ ['.']])) := by
  rw [generateText] at h
  split at h
  · rename_i hm
    cases h
    exact Or.inl ⟨hm, rfl⟩
  · split at h
    · cases h
    · rename_i start hstart
      split at h
      · cases h
      · rename_i result hloop
        rw [finalize] at h
        split at h
        · cases h
        · rename_i last hlast
          cases h
          exact Or.inr ⟨start, result, last, hstart, hloop, hlast, rfl⟩

theorem okWindow_length (order : Nat) (w : Window) (h : okWindow order w = true) :
    w.length = order ∧ ∀ t ∈ w, okToken t = true := by
  rw [okWindow, Bool.and_eq_true, List.all_eq_true] at h
  exact ⟨of_decide_eq_true h.1, h.2⟩

/-- In a well-formed generator, any chosen start window is well-formed. -/
theorem wfGen_start (g : Gen) (hwf : wfGen g = true) (r : Nat) (start : Window)
    (h : getRandomStart g r = some start) : okWindow g.order start = true := by
  rw [wfGen, Bool.and_eq_true, List.all_eq_true, List.all_eq_true] at hwf
  rw [getRandomStart] at h
  split at h
  · have hmem := choice?_mem _ r start h
    obtain ⟨p, hp, rfl⟩ := List.mem_map.mp hmem
    exact ((Bool.and_eq_true _ _).mp (hwf.2 p hp)).1
  · exact hwf.1 start (choice?_mem _ r start h)

/-- In a well-formed generator, every recorded successor is well-formed. -/
theorem wfGen_model_tokens (g : Gen) (hwf : wfGen g = true) :
    ∀ p ∈ g.model, ∀ t ∈ p.2, okToken t = true := by
  rw [wfGen, Bool.and_eq_true, List.all_eq_true, List.all_eq_true] at hwf
  intro p hp t ht
  exact List.all_eq_true.mp ((Bool.and_eq_true _ _).mp (hwf.2 p hp)).2 t ht

/-- `addText` skips a text whose token count does not exceed the order. -/
theorem addText_skip (order : Nat) (st : BuildState) (text : List Char)
    (h : (tokenize text).length ≤ order) : addText order st text = st := by
  simp only [addText]
  rw [if_pos h]

/-- One build step preserves the construction invariant: the model and the
beginnings are empty together, and successor lists are never empty. -/
theorem addText_inv (order : Nat) (st : BuildState) (text : List Char)
    (h1 : st.model = [] ↔ st.beginnings = []) (h2 : ∀ p ∈ st.model, p.2 ≠ []) :
    ((addText order st text).model = [] ↔ (addText order st text).beginnings = []) ∧
    (∀ p ∈ (addText order st text).model, p.2 ≠ []) := by
  simp only [addText]
  split
  · exact ⟨h1, h2⟩
  · rename_i hlen
    constructor
    · dsimp only
      have hrange : List.range ((tokenize text).length - order) ≠ [] := by
        intro he
        have := congrArg List.length he
        simp only [List.length_range, List.length_nil] at this
        omega
      have hm : (List.range ((tokenize text).length - order)).foldl
          (fun m i => addSucc m (((tokenize text).drop i).take order)
            ((tokenize text).getD (i + order) [])) st.model ≠ [] :=
        foldl_addSucc_ne_nil _ _ _ st.model (Or.inr hrange)
      have hb : st.beginnings ++ [(tokenize text).take order] ≠ [] := by simp
      exact iff_of_false hm hb
    · dsimp only
      exact foldl_entries_ne_nil _ _ _ st.model h2

/-- The construction invariant holds of every built state. -/
theorem buildModel_inv (order : Nat) (corpus : List (List Char)) :
    ((buildModel order corpus).model = [] ↔ (buildModel order corpus).beginnings = []) ∧
    (∀ p ∈ (buildModel order corpus).model, p.2 ≠ []) := by
  suffices h : ∀ (cs : List (List Char)) (st : BuildState),
      (st.model = [] ↔ st.beginnings = []) → (∀ p ∈ st.model, p.2 ≠ []) →
      ((cs.foldl (addText order) st).model = [] ↔
        (cs.foldl (addText order) st).beginnings = []) ∧
      (∀ p ∈ (cs.foldl (addText order) st).model, p.2 ≠ []) by
    exact h corpus ⟨[], []⟩ (by simp) (by simp)
  intro cs
  induction cs with
  | nil => exact fun st h1 h2 => ⟨h1, h2⟩
  | cons t rest ih =>
    intro st h1 h2
    rw [List.foldl_cons]
    obtain ⟨g1, g2⟩ := addText_inv order st t h1 h2
    exact ih _ g1 g2

/-! ## The claims -/

/-- **C4** (counterexample): the claim's per-word rule says every character
that is not alphanumeric or whitespace is stripped, but `_tokenize` strips
with the regex class `[^\w\s]`, and `\w` keeps the underscore: on the input
`a_b` the tokenizer emits `a_b` while the claimed rule emits `ab`. -/
theorem c4_counterexample :
    tokenize "a_b".toList = [['a', '_', 'b']] ∧
    (splitWords "a_b".toList).filterMap specProcessWord = [['a', 'b']] ∧
    tokenize "a_b".toList ≠ (splitWords "a_b".toList).filterMap specProcessWord := by
  refine ⟨by decide, by decide, by decide⟩

/-- **C4** (amended: the kept characters are the alphanumerics, the
underscore, and whitespace — the regex class `\w\s` — rather than
"alphanumeric or whitespace"): tokenization is exactly the
whitespace-split of the input with the per-word rule `processWord` applied
to each raw word (terminal-punctuated words verbatim, others filtered to
`[^\w\s]`-free form and dropped when empty); no empty token ever appears,
and the empty input yields the empty sequence. -/
theorem c4_tokenize_per_word (text : List Char) :
    tokenize text = (splitWords text).filterMap processWord ∧
    (∀ t ∈ tokenize text, t ≠ []) ∧
    tokenize [] = [] := by
  refine ⟨tokenize_eq_filterMap text, ?_, rfl⟩
  intro t ht
  rw [tokenize_eq_filterMap] at ht
  obtain ⟨w, _, hp⟩ := List.mem_filterMap.mp ht
  rw [processWord] at hp
  by_cases he : endsTerm w = true
  · rw [if_pos he] at hp
    cases hp
    exact endsTerm_ne_nil t he
  · rw [if_neg he] at hp
    simp only at hp
    by_cases hnil : w.filter (fun c => isWordChar c || isSpaceChar c) = []
    · rw [if_pos hnil] at hp
      cases hp
    · rw [if_neg hnil] at hp
      cases hp
      exact hnil

/-- **C4** witness: on the concrete input `ab, cd!` the token `ab`
(produced by stripping the comma) is non-empty. -/
theorem c4_witness :
    "ab".toList ∈ tokenize "ab, cd!".toList ∧ "ab".toList ≠ [] :=
  ⟨by decide, (c4_tokenize_per_word "ab, cd!".toList).2.1 "ab".toList (by decide)⟩

/-- **C1** (counterexample): on the empty model `generate_text` returns the
empty string, whose final character is not terminal punctuation (it has no
final character), so the claim's universal statement fails for that output. -/
theorem c1_counterexample :
    generateText genEmpty 50 10 randZero = some [] ∧ endsTerm [] = false :=
  ⟨rfl, rfl⟩

/-- **C1** (amended: every *non-empty* output string ends in `.`, `!` or
`?`; the empty string is returned exactly on the empty model): if the last
token of the loop's result does not already end terminally, a `.` is
appended to it before joining, so the joined string ends terminally. -/
theorem c1_final_punctuation (g : Gen) (maxW minW : Nat) (rand : Nat → Nat)
    (s : List Char) (h : generateText g maxW minW rand = some s) (hne : s ≠ []) :
    endsTerm s = true := by
  rcases generateText_inv g maxW minW rand s h with ⟨_, rfl⟩ | ⟨start, result, last, _, _, hlast, rfl⟩
  · exact absurd rfl hne
  · by_cases hterm : endsTerm last = true
    · rw [if_pos hterm]
      rw [joinSpace_endsTerm result last hlast (endsTerm_ne_nil last hterm)]
      exact hterm
    · rw [if_neg hterm]
      rw [joinSpace_endsTerm (result.dropLast ++ [last ++ ['.']]) (last ++ ['.'])
        (List.getLast?_concat _) (by simp)]
      rw [endsTerm_append last ['.'] (by simp)]
      decide

/-- **C1** witness: a concrete run returns `a b c.`, which is non-empty and
ends in `.`. -/
theorem c1_witness : endsTerm "a b c.".toList = true :=
  c1_final_punctuation genABC 50 10 randZero "a b c.".toList (by decide) (by decide)

/-- **C3**: when every text of the corpus (in particular, when the corpus
is empty) tokenizes to at most `order` tokens, `_build_model` produces an
empty model and empty beginnings, and `generate_text` on an empty model
returns the empty string without raising. -/
theorem c3_empty_model (order : Nat) (corpus : List (List Char))
    (h : ∀ t ∈ corpus, (tokenize t).length ≤ order) :
    buildModel order corpus = ⟨[], []⟩ ∧
    (∀ (maxW minW : Nat) (rand : Nat → Nat),
      generateText ⟨order, [], []⟩ maxW minW rand = some []) := by
  constructor
  · rw [buildModel]
    induction corpus with
    | nil => rfl
    | cons t rest ih =>
      rw [List.foldl_cons, addText_skip order _ t (h t (List.mem_cons_self t rest))]
      exact ih (fun u hu => h u (List.mem_cons_of_mem t hu))
  · intro maxW minW rand
    rfl

/-- **C3** witness: the one-text corpus `a b` tokenizes to exactly 2 tokens
with order 2 (the boundary case), and generation on the resulting empty
model returns the empty string. -/
theorem c3_witness :
    buildModel 2 ["a b".toList] = ⟨[], []⟩ ∧
    generateText ⟨2, [], []⟩ 50 10 randZero = some [] := by
  have h := c3_empty_model 2 ["a b".toList] (by decide)
  exact ⟨h.1, h.2 50 10 randZero⟩

/-- **C2** (counterexample): with `max_words = 1` and order 2, the output
of a concrete run contains 2 tokens, exceeding `max_words`: the claimed
bound "at most `max_words` tokens" fails when `max_words < order`, because
the result already starts with the `order`-token window. -/
theorem c2_counterexample :
    generateText genABC 1 10 randZero = some "a b.".toList ∧
    countTokens "a b.".toList = 2 ∧ ¬(countTokens "a b.".toList ≤ 1) :=
  ⟨by decide, by decide, by decide⟩

/-- **C2** (amended: for a well-formed generator — `order`-token windows of
non-empty whitespace-free tokens, as `_build_model` produces — the output
contains at most `max (max_words, order)` tokens, hence at most `max_words`
whenever `max_words ≥ order`): the extension loop runs at most
`max_words - order` iterations starting from an `order`-token window, and
the post-processing adds no token. -/
theorem c2_max_words (g : Gen) (maxW minW : Nat) (rand : Nat → Nat)
    (hwf : wfGen g = true) (s : List Char)
    (h : generateText g maxW minW rand = some s) :
    countTokens s ≤ max maxW g.order := by
  rcases generateText_inv g maxW minW rand s h with ⟨_, rfl⟩ |
    ⟨start, result, last, hstart, hloop, hlast, rfl⟩
  · have : countTokens [] = 0 := rfl
    omega
  · obtain ⟨hstartlen, hstarttok⟩ := okWindow_length g.order start (wfGen_start g hwf (rand 0) start hstart)
    have hreslen : result.length ≤ start.length + (maxW - g.order) :=
      genLoop_length g.model g.order minW rand (maxW - g.order) 1 start start result hloop
    have hrestok : ∀ t ∈ result, okToken t = true :=
      genLoop_tokens g.model g.order minW rand (wfGen_model_tokens g hwf)
        (maxW - g.order) 1 start start result hstarttok hloop
    have hresne : result ≠ [] := by
      intro he
      rw [he] at hlast
      simp at hlast
    have hlastmem : last ∈ result := List.mem_of_getLast?_eq_some hlast
    by_cases hterm : endsTerm last = true
    · rw [if_pos hterm]
      rw [countTokens, splitWords_joinSpace result hrestok]
      omega
    · rw [if_neg hterm]
      have hr2tok : ∀ t ∈ result.dropLast ++ [last ++ ['.']], okToken t = true := by
        intro t ht
        rcases List.mem_append.mp ht with h1 | h1
        · exact hrestok t (List.dropLast_subset result h1)
        · rcases List.mem_singleton.mp h1 with rfl
          exact okToken_append_dot last (hrestok last hlastmem)
      rw [countTokens, splitWords_joinSpace _ hr2tok]
      have h1 : result.dropLast.length = result.length - 1 := List.length_dropLast result
      have h2 : 1 ≤ result.length := List.length_pos.mpr hresne
      simp only [List.length_append, List.length_cons, List.length_nil]
      omega

/-- **C2** witness: the generator built from `a b c.` is well-formed, and
a concrete run with `max_words = 50` yields 3 tokens, within
`max (50, 2)`. -/
theorem c2_witness :
    wfGen genABC = true ∧ countTokens "a b c.".toList ≤ max 50 genABC.order :=
  ⟨by decide, c2_max_words genABC 50 10 randZero (by decide) "a b c.".toList (by decide)⟩

/-- **C5**: a text tokenizing to at most `order` tokens (including exactly
`order`) contributes nothing; a longer text appends exactly its first
`order` tokens to the beginnings and records one successor per window
position `i` from 0 to `len - order - 1` inclusive (so the total successor
count grows by exactly `len - order`, and each window's successor is
recorded under it). -/
theorem c5_build_per_text (order : Nat) (st : BuildState) (text : List Char) :
    ((tokenize text).length ≤ order → addText order st text = st) ∧
    (order < (tokenize text).length →
      (addText order st text).beginnings =
        st.beginnings ++ [(tokenize text).take order] ∧
      succCount (addText order st text).model =
        succCount st.model + ((tokenize text).length - order) ∧
      (∀ i < (tokenize text).length - order,
        ∃ ss, lookup (addText order st text).model
            (((tokenize text).drop i).take order) = some ss ∧
          (tokenize text).getD (i + order) [] ∈ ss)) := by
  constructor
  · exact addText_skip order st text
  · intro hlen
    have hadd : addText order st text =
        { model := (List.range ((tokenize text).length - order)).foldl
            (fun m i => addSucc m (((tokenize text).drop i).take order)
              ((tokenize text).getD (i + order) [])) st.model
          beginnings := st.beginnings ++ [(tokenize text).take order] } := by
      simp only [addText]
      rw [if_neg (by omega)]
    rw [hadd]
    refine ⟨rfl, ?_, ?_⟩
    · have h := succCount_foldl (fun i => ((tokenize text).drop i).take order)
        (fun i => (tokenize text).getD (i + order) [])
        (List.range ((tokenize text).length - order)) st.model
      rw [List.length_range] at h
      exact h
    · intro i hi
      exact foldl_lookup_self (fun i => ((tokenize text).drop i).take order)
        (fun i => (tokenize text).getD (i + order) [])
        (List.range ((tokenize text).length - order)) st.model i (List.mem_range.mpr hi)

/-- **C5** witness: with order 2, the 2-token text `a b` contributes
nothing (the boundary case), and the 3-token text `a b c.` appends its
first two tokens to the beginnings. -/
theorem c5_witness :
    addText 2 ⟨[], []⟩ "a b".toList = ⟨[], []⟩ ∧
    (addText 2 ⟨[], []⟩ "a b c.".toList).beginnings =
      ([] : List Window) ++ [(tokenize "a b c.".toList).take 2] :=
  ⟨(c5_build_per_text 2 ⟨[], []⟩ "a b".toList).1 (by decide),
   ((c5_build_per_text 2 ⟨[], []⟩ "a b c.".toList).2 (by decide)).1⟩

/-- **C6**: once the result (with the just-appended token) has length at
least `min_words`, a terminal just-appended token stops the loop at once;
below `min_words` a terminal token does not stop it (the loop recurses);
and a normal return means the minimum length was reached, or the iteration
budget was exhausted, or the final window is a dead end — so except for
dead ends and the `max_words` bound, generation stops only at length
`≥ min_words`. -/
theorem c6_stop_conditions (model : Model) (order minW : Nat) (rand : Nat → Nat) :
    (∀ (fuel k : Nat) (current : Window) (result succs : List Token) (w : Token),
      lookup model current = some succs →
      choice? succs (rand k) = some w →
      minW ≤ (result ++ [w]).length →
      endsTerm w = true →
      genLoop model order minW rand (fuel + 1) k current result = some (result ++ [w])) ∧
    (∀ (fuel k : Nat) (current : Window) (result succs : List Token) (w : Token),
      lookup model current = some succs →
      choice? succs (rand k) = some w →
      (result ++ [w]).length < minW →
      genLoop model order minW rand (fuel + 1) k current result =
        genLoop model order minW rand fuel (k + 1)
          (lastSlice (result ++ [w]) order) (result ++ [w])) ∧
    (∀ (fuel k : Nat) (result out : List Token),
      genLoop model order minW rand fuel k (lastSlice result order) result = some out →
      minW ≤ out.length ∨ out.length = result.length + fuel ∨
        lookup model (lastSlice out order) = none) := by
  refine ⟨?_, ?_, genLoop_stop model order minW rand⟩
  · intro fuel k current result succs w h1 h2 h3 h4
    rw [genLoop, h1]
    dsimp only
    rw [h2]
    dsimp only
    have hcond : (decide (minW ≤ (result ++ [w]).length) && endsTerm w) = true := by
      rw [h4, decide_eq_true h3]
      rfl
    rw [if_pos hcond]
  · intro fuel k current result succs w h1 h2 h3
    rw [genLoop, h1]
    dsimp only
    rw [h2]
    dsimp only
    have hcond : ¬((decide (minW ≤ (result ++ [w]).length) && endsTerm w) = true) := by
      intro hc
      have hc2 := (Bool.and_eq_true _ _).mp hc
      have := of_decide_eq_true hc2.1
      omega
    rw [if_neg hcond]

/-- **C6** witness: in the `a b c.` model with `min_words = 3`, the
terminal token `c.` appended at length 3 stops the loop at once, and a
concrete normal return satisfies the stop disjunction. -/
theorem c6_witness :
    genLoop genABC.model 2 3 randZero 5 1 ["a".toList, "b".toList]
        ["a".toList, "b".toList] =
      some (["a".toList, "b".toList] ++ ["c.".toList]) ∧
    (3 ≤ (["a".toList, "b".toList, "c.".toList] : List Token).length ∨
      (["a".toList, "b".toList, "c.".toList] : List Token).length =
        (["a".toList, "b".toList] : List Token).length + 5 ∨
      lookup genABC.model (lastSlice ["a".toList, "b".toList, "c.".toList] 2) = none) := by
  constructor
  · exact (c6_stop_conditions genABC.model 2 3 randZero).1 4 1
      ["a".toList, "b".toList] ["a".toList, "b".toList] ["c.".toList] "c.".toList
      (by decide) (by decide) (by decide) (by decide)
  · exact (c6_stop_conditions genABC.model 2 3 randZero).2.2 5 1
      ["a".toList, "b".toList] ["a".toList, "b".toList, "c.".toList] (by decide)

/-- **C7**: with non-empty beginnings the start window is drawn from the
beginnings (by position in the duplicate-keeping list, so duplicates weight
the draw); with empty beginnings but a non-empty model it is drawn from the
model's keys; and the generation loop is entered with the result
initialized to exactly the chosen window. -/
theorem c7_start_selection (g : Gen) (r : Nat) :
    (g.beginnings ≠ [] →
      ∃ w, getRandomStart g r = some w ∧ w ∈ g.beginnings) ∧
    (g.beginnings = [] → g.model ≠ [] →
      ∃ w, getRandomStart g r = some w ∧ w ∈ g.model.map Prod.fst) ∧
    (∀ (maxW minW : Nat) (rand : Nat → Nat) (start : Window),
      g.model ≠ [] → getRandomStart g (rand 0) = some start →
      generateText g maxW minW rand =
        (genLoop g.model g.order minW rand (maxW - g.order) 1 start start).bind
          finalize) := by
  refine ⟨?_, ?_, ?_⟩
  · intro hb
    obtain ⟨w, hw⟩ := choice?_of_ne_nil g.beginnings r hb
    refine ⟨w, ?_, choice?_mem _ r w hw⟩
    rw [getRandomStart, if_neg hb]
    exact hw
  · intro hb hm
    have hkeys : g.model.map Prod.fst ≠ [] := by
      simpa [List.map_eq_nil_iff] using hm
    obtain ⟨w, hw⟩ := choice?_of_ne_nil _ r hkeys
    refine ⟨w, ?_, choice?_mem _ r w hw⟩
    rw [getRandomStart, if_pos hb]
    exact hw
  · intro maxW minW rand start hm hstart
    rw [generateText, if_neg hm, hstart]
    dsimp only
    cases hx : genLoop g.model g.order minW rand (maxW - g.order) 1 start start with
    | none => rfl
    | some result => rfl

/-- **C7** witness: for the `a b c.` generator the start is drawn from the
beginnings, and a concrete run is the loop started from the window
`(a, b)`. -/
theorem c7_witness :
    (∃ w, getRandomStart genABC 0 = some w ∧ w ∈ genABC.beginnings) ∧
    generateText genABC 50 10 randZero =
      (genLoop genABC.model genABC.order 10 randZero (50 - genABC.order) 1
        ["a".toList, "b".toList] ["a".toList, "b".toList]).bind finalize := by
  constructor
  · exact (c7_start_selection genABC 0).1 (by decide)
  · exact (c7_start_selection genABC 0).2.2 50 10 randZero ["a".toList, "b".toList]
      (by decide) (by decide)

/-- **C8**: the output of `generate_text` is a function of the model,
beginnings, order, `max_words`, `min_words` and the values drawn from the
random source: two runs whose random streams agree on the (at most
`1 + (max_words - order)`) values the algorithm can draw return identical
results. -/
theorem c8_determinism (g : Gen) (maxW minW : Nat) (r1 r2 : Nat → Nat)
    (h : ∀ i, i < 1 + (maxW - g.order) → r1 i = r2 i) :
    generateText g maxW minW r1 = generateText g maxW minW r2 := by
  rw [generateText, generateText]
  by_cases hm : g.model = []
  · rw [if_pos hm, if_pos hm]
  · rw [if_neg hm, if_neg hm]
    have h0 : r1 0 = r2 0 := h 0 (by omega)
    rw [h0]
    cases hs : getRandomStart g (r2 0) with
    | none => rfl
    | some start =>
      dsimp only
      rw [genLoop_congr g.model g.order minW r1 r2 (maxW - g.order) 1 start start
        (fun i hi1 hi2 => h i (by omega))]

/-- **C8** witness: the all-zero stream and a stream agreeing with it on
the first 49 values produce byte-identical output on a concrete
generator. -/
theorem c8_witness :
    generateText genABC 50 10 randZero = generateText genABC 50 10 randShift :=
  c8_determinism genABC 50 10 randZero randShift
    (fun i hi => by
      have h2 : genABC.order = 2 := rfl
      rw [h2] at hi
      simp only [randZero, randShift]
      rw [if_pos (show i < 49 by omega)])

/-- **C9**: building from the corpus `["the cat sat on the mat.",
"the cat ran away."]` with order 2 records both `sat` and `ran` as
successors of the window `("the", "cat")`, and that window occurs exactly
twice in the beginnings. -/
theorem c9_cat_corpus :
    ∃ ss, lookup genCat.model ["the".toList, "cat".toList] = some ss ∧
      "sat".toList ∈ ss ∧ "ran".toList ∈ ss ∧
      genCat.beginnings.count ["the".toList, "cat".toList] = 2 :=
  ⟨["sat".toList, "ran".toList], by decide, by decide, by decide, by decide⟩

/-- **C10**: after `_build_model`, the model is non-empty exactly when the
beginnings are (every surviving text feeds both), every stored successor
list is non-empty, and when the beginnings are empty the model is empty
too, so generation returns the empty string at the guard and the
degraded-start fallback of `_get_random_start` is never reached for a
constructed generator. -/
theorem c10_construction_invariant (order : Nat) (corpus : List (List Char)) :
    ((buildModel order corpus).model = [] ↔ (buildModel order corpus).beginnings = []) ∧
    (∀ p ∈ (buildModel order corpus).model, p.2 ≠ []) ∧
    ((buildModel order corpus).beginnings = [] →
      ∀ (maxW minW : Nat) (rand : Nat → Nat),
        generateText ⟨order, (buildModel order corpus).model,
          (buildModel order corpus).beginnings⟩ maxW minW rand = some []) := by
  obtain ⟨h1, h2⟩ := buildModel_inv order corpus
  refine ⟨h1, h2, ?_⟩
  intro hb maxW minW rand
  have hm : (Gen.mk order (buildModel order corpus).model
      (buildModel order corpus).beginnings).model = [] := h1.mpr hb
  rw [generateText, if_pos hm]

/-- **C10** witness: the cat corpus yields a model and beginnings that are
non-empty together, and the boundary corpus `a b` (order 2) yields empty
beginnings, on which generation returns the empty string. -/
theorem c10_witness :
    ((buildModel 2 corpusCat).model = [] ↔ (buildModel 2 corpusCat).beginnings = []) ∧
    generateText ⟨2, (buildModel 2 ["a b".toList]).model,
      (buildModel 2 ["a b".toList]).beginnings⟩ 50 10 randZero = some [] :=
  ⟨(c10_construction_invariant 2 corpusCat).1,
   (c10_construction_invariant 2 ["a b".toList]).2.2 (by decide) 50 10 randZero⟩

end Markov
